import Mathlib

/-!
Verification of the KS0108 display driver and rasterizer (`pylcd/ks0108.py`).

The Python source is shallowly embedded: pure helper expressions become Lean
functions, the mutable `Display` / `DisplayDraw` objects become explicit state
records threaded through the operations, machine bytes become `Nat`, pixel
coordinates become `Int` (Python integers are unbounded), and the re-entrant
`commit`/`write_page` recursion is given explicit fuel.  Floating point
arithmetic in `line` is idealised as exact rational arithmetic and the
transcendental functions of `circle` as real functions, following the
real-valued formulas of the source.
-/

set_option maxRecDepth 8000

namespace PyLCD

/-! ### Command byte encoding (`Display.set_column`, `Display.set_page`)

The source builds command bytes through Python string surgery:
`int(bin(int(bin(column)[2:].rjust(6, "0")[::-1], 2))[2:] + "10", 2)`.
We embed `bin(n)[2:]` as an MSB-first digit list, `rjust` as left padding,
`[::-1]` as `List.reverse` and `int(s, 2)` as an MSB-first fold. -/

/-- `int(s, 2)` for an MSB-first binary digit list. -/
def parseBin (l : List Nat) : Nat :=
  l.foldl (fun acc d => acc * 2 + d) 0

/-- MSB-first binary expansion, 8 bits of fuel (all inputs here are < 256). -/
def pyBinAux : Nat → Nat → List Nat
  | 0, _ => []
  | _, 0 => []
  | fuel + 1, n => pyBinAux fuel (n / 2) ++ [n % 2]

/-- `bin(n)[2:]`: MSB-first digits of `n`, with `bin(0)[2:] = "0"`. -/
def pyBin (n : Nat) : List Nat :=
  if n = 0 then [0] else pyBinAux 8 n

/-- `s.rjust(w, "0")`: pad an MSB-first digit list on the left with zeros. -/
def rjust (w : Nat) (l : List Nat) : List Nat :=
  List.replicate (w - l.length) 0 ++ l

/-- The chip selected by `Display.set_column` (`column > 63` selects chip 2). -/
def set_column_chip (column : Nat) : Nat :=
  if column > 63 then 2 else 1

/-- The command byte issued by `Display.set_column`:
`int(bin(int(bin(column)[2:].rjust(6, "0")[::-1], 2))[2:] + "10", 2)`,
after the in-chip adjustment `column -= 64` for chip 2. -/
def set_column_byte (column : Nat) : Nat :=
  let col := if column > 63 then column - 64 else column
  parseBin (pyBin (parseBin ((rjust 6 (pyBin col)).reverse)) ++ [1, 0])

/-- The command byte issued by `Display.set_page`:
`int(bin(int(bin(page)[2:].rjust(3, "0")[::-1], 2))[2:] + "11101", 2)`. -/
def set_page_byte (page : Nat) : Nat :=
  parseBin (pyBin (parseBin ((rjust 3 (pyBin page)).reverse)) ++ [1, 1, 1, 0, 1])

/-- Arithmetic 6-bit bit-order reversal (the spec's `reverse6`). -/
def reverse6 (n : Nat) : Nat :=
  32 * (n % 2) + 16 * (n / 2 % 2) + 8 * (n / 4 % 2) +
    4 * (n / 8 % 2) + 2 * (n / 16 % 2) + (n / 32 % 2)

/-- Arithmetic 3-bit bit-order reversal (the spec's `reverse3`). -/
def reverse3 (n : Nat) : Nat :=
  4 * (n % 2) + 2 * (n / 2 % 2) + (n / 4 % 2)

/-- C1: for every column `c` in 0..127, `set_column(c)` selects chip 1 when
`c < 64` and chip 2 when `c >= 64` and issues the byte
`reverse6(c mod 64) <<< 2 ||| 0b10`; for every page `p` in 0..7, `set_page(p)`
issues the byte `reverse3(p) <<< 5 ||| 0b11101`. -/
theorem set_column_set_page_encoding (c p : Nat) (hc : c < 128) (hp : p < 8) :
    set_column_chip c = (if c < 64 then 1 else 2) ∧
    set_column_byte c = reverse6 (c % 64) * 4 + 2 ∧
    set_page_byte p = reverse3 p * 32 + 29 := by
  revert hp; revert p; revert hc; revert c
  decide

theorem set_column_set_page_encoding_witness :
    (70 : Nat) < 128 ∧ (5 : Nat) < 8 ∧
    (set_column_chip 70 = (if 70 < 64 then 1 else 2) ∧
      set_column_byte 70 = reverse6 (70 % 64) * 4 + 2 ∧
      set_page_byte 5 = reverse3 5 * 32 + 29) :=
  ⟨by decide, by decide, set_column_set_page_encoding 70 5 (by decide) (by decide)⟩

/-! ### Display state and the buffered commit (`Display.commit`, `Display.write_page`)

`Display.content` is a 128×8 array of 8-bit cells.  Canvas cells are modelled
as byte values (`Nat`), pages are indexed `(column, page)`.  Only data-byte
writes (`write_value` with `data = True`) appear in the emitted trace, as
pairs `(column, page)`; command bytes are covered by the pure encoders above.
`write_page(commit=True)` re-enters `commit` when `auto_commit` is set, so the
pair is embedded with explicit fuel; `none` means the recursion did not finish
within the given fuel. -/

/-- Modelled from the spec: `byte_to_value` / `value_to_byte` live in
`pylcd/utils.py`, which is not part of the sources here.  Per spec §3 and §8 a
cell is the 8-bit packing of one column/page slice and the two helpers are
mutually inverse, so cells are modelled directly as byte values and the round
trip `byte_to_value(value_to_byte(v))` is the identity. -/
def byteRoundTrip (v : Nat) : Nat := v

/-- The mutable state of a `Display`. -/
structure Disp where
  content : Nat → Nat → Nat
  old_content : Nat → Nat → Nat
  cursor : Nat × Nat
  current_chip : Nat
  auto_commit : Bool

/-- Point update of a two-argument function (mutation of `content[x][y]`). -/
def upd2 (f : Nat → Nat → Nat) (x y v : Nat) : Nat → Nat → Nat :=
  fun a b => if a = x ∧ b = y then v else f a b

theorem upd2_same (f : Nat → Nat → Nat) (x y : Nat) : upd2 f x y (f x y) = f := by
  funext a b
  unfold upd2
  split
  case isTrue h => rw [h.1, h.2]
  case isFalse h => rfl

theorem upd2_point (f : Nat → Nat → Nat) (x y v a b : Nat) :
    upd2 f x y v a b = if a = x ∧ b = y then v else f a b := rfl

/-- `Display.set_cursor_position(x, y, internal, force)`.  `set_page` changes
no `Disp` field (it only emits a command byte); `set_column` records the
selected chip in `current_chip`. -/
def setCursorPos (s : Disp) (x y : Nat) (internal force : Bool) : Disp :=
  if internal then { s with cursor := (x, y) }
  else
    let s1 := if force || decide (x ≠ s.cursor.1) then
        { s with current_chip := if x > 63 then 2 else 1 }
      else s
    { s1 with cursor := (x, y) }

theorem setCursorPos_fields (s : Disp) (x y : Nat) (internal force : Bool) :
    (setCursorPos s x y internal force).content = s.content ∧
    (setCursorPos s x y internal force).old_content = s.old_content ∧
    (setCursorPos s x y internal force).auto_commit = s.auto_commit := by
  unfold setCursorPos
  split
  · exact ⟨rfl, rfl, rfl⟩
  · dsimp only
    split <;> exact ⟨rfl, rfl, rfl⟩

/-- The addressing sequence of `Display.write_page(commit=True)`:
`set_cursor_position(column, page*8)`, the data-byte write, then the cursor
advance `set_cursor_position(column+1, page*8, internal=not force, force=force)`
with `force = (column + 1 == 64)`. -/
def writeAddr (s : Disp) (column page : Nat) : Disp :=
  let sa := setCursorPos s column (page * 8) false false
  setCursorPos sa (column + 1) (page * 8) (!(column + 1 == 64)) (column + 1 == 64)

theorem writeAddr_fields (s : Disp) (column page : Nat) :
    (writeAddr s column page).content = s.content ∧
    (writeAddr s column page).old_content = s.old_content ∧
    (writeAddr s column page).auto_commit = s.auto_commit := by
  unfold writeAddr
  obtain ⟨h1, h2, h3⟩ := setCursorPos_fields s column (page * 8) false false
  obtain ⟨g1, g2, g3⟩ := setCursorPos_fields (setCursorPos s column (page * 8) false false)
    (column + 1) (page * 8) (!(column + 1 == 64)) (column + 1 == 64)
  exact ⟨g1.trans h1, g2.trans h2, g3.trans h3⟩

/-- Body of `Display.write_page(value, column, page, commit)`, parameterised
by the behaviour `recCommit` of the re-entrant `self.commit()` call.  The
emitted trace records the data-byte writes.  The stored cell is
`value_to_byte(value)`, i.e. the modelled round trip. -/
def writePageGo (recCommit : Disp → Option (Disp × List (Nat × Nat)))
    (s : Disp) (value column page : Nat) (commitFlag : Bool) :
    Option (Disp × List (Nat × Nat)) :=
  let s1 := if commitFlag then writeAddr s column page else s
  let s2 := { s1 with content := upd2 s1.content column page (byteRoundTrip value) }
  let tr := if commitFlag then [(column, page)] else []
  if s2.auto_commit then
    match recCommit s2 with
    | none => none
    | some (s3, tr2) => some (s3, tr ++ tr2)
  else some (s2, tr)

/-- Cell sweep order of `Display.commit`: pages 0..7 outer, columns 0..127
inner. -/
def commitCells : List (Nat × Nat) :=
  (List.range 8).flatMap fun y => (List.range 128).map fun x => (x, y)

/-- The per-cell loop of `Display.commit`: write the cell when `full` is set
or the canvas byte differs from the committed snapshot. -/
def sweepGo (recCommit : Disp → Option (Disp × List (Nat × Nat))) (full : Bool) :
    Disp → List (Nat × Nat) → Option (Disp × List (Nat × Nat))
  | s, [] => some (s, [])
  | s, (x, y) :: rest =>
    if full || (!full && (s.content x y != s.old_content x y)) then
      match writePageGo recCommit s (byteRoundTrip (s.content x y)) x y true with
      | none => none
      | some (s1, tr) =>
        match sweepGo recCommit full s1 rest with
        | none => none
        | some (s2, tr2) => some (s2, tr ++ tr2)
    else sweepGo recCommit full s rest

/-- `Display.commit(full, live)` with explicit fuel bounding the re-entrancy
depth through `write_page`'s auto-commit.  `set_display_enable` (the `live`
handling) only emits command bytes and changes no `Disp` field. -/
def commitF : Nat → Disp → Bool → Bool → Option (Disp × List (Nat × Nat))
  | 0, _, _, _ => none
  | fuel + 1, s, full, _live =>
    let s0 := setCursorPos s 0 0 false true
    match sweepGo (fun s' => commitF fuel s' false true) full s0 commitCells with
    | none => none
    | some (s1, tr) =>
      some (setCursorPos { s1 with old_content := s1.content } 0 0 false true, tr)

theorem mem_commitCells (x y : Nat) : (x, y) ∈ commitCells ↔ x < 128 ∧ y < 8 := by
  unfold commitCells
  simp only [List.mem_flatMap, List.mem_map, List.mem_range, Prod.mk.injEq]
  constructor
  · rintro ⟨b, hb, a, ha, hax, hby⟩
    exact ⟨hax ▸ ha, hby ▸ hb⟩
  · rintro ⟨hx, hy⟩
    exact ⟨y, hy, x, hx, rfl, rfl⟩

/-- A concrete display state with `auto_commit` off whose canvas differs from
its snapshot everywhere. -/
def dispPlain : Disp :=
  { content := fun _ _ => 1, old_content := fun _ _ => 0, cursor := (0, 0),
    current_chip := 1, auto_commit := false }

/-- The same canvas state with `auto_commit` on. -/
def dispOne : Disp :=
  { content := fun _ _ => 1, old_content := fun _ _ => 0, cursor := (0, 0),
    current_chip := 1, auto_commit := true }

theorem writePageGo_no_auto (recCommit : Disp → Option (Disp × List (Nat × Nat)))
    (s : Disp) (value column page : Nat) (h : s.auto_commit = false) :
    ∃ s2, writePageGo recCommit s value column page true = some (s2, [(column, page)]) ∧
      s2.content = upd2 s.content column page value ∧
      s2.old_content = s.old_content ∧ s2.auto_commit = false := by
  obtain ⟨hc, ho, ha⟩ := writeAddr_fields s column page
  refine ⟨{ writeAddr s column page with
            content := upd2 (writeAddr s column page).content column page value }, ?_, ?_, ?_, ?_⟩
  · unfold writePageGo
    simp only [if_pos rfl]
    rw [if_neg]
    · rfl
    · show ¬((writeAddr s column page).auto_commit = true)
      rw [ha, h]
      simp
  · rw [hc]
  · exact ho
  · exact ha.trans h

theorem writePageGo_auto (recCommit : Disp → Option (Disp × List (Nat × Nat)))
    (s : Disp) (value column page : Nat) (h : s.auto_commit = true) :
    writePageGo recCommit s value column page true =
      match recCommit { writeAddr s column page with
          content := upd2 (writeAddr s column page).content column page value } with
      | none => none
      | some (s3, tr2) => some (s3, (column, page) :: tr2) := by
  obtain ⟨hc, ho, ha⟩ := writeAddr_fields s column page
  unfold writePageGo
  simp only [if_pos rfl]
  rw [if_pos]
  · rfl
  · show (writeAddr s column page).auto_commit = true
    rw [ha, h]

theorem sweepGo_no_auto (recCommit : Disp → Option (Disp × List (Nat × Nat)))
    (full : Bool) (cells : List (Nat × Nat)) :
    ∀ s : Disp, s.auto_commit = false →
    ∃ s2, sweepGo recCommit full s cells = some (s2,
        cells.filter fun c => full || (!full && (s.content c.1 c.2 != s.old_content c.1 c.2))) ∧
      s2.content = s.content ∧ s2.old_content = s.old_content ∧ s2.auto_commit = false := by
  induction cells with
  | nil => exact fun s h => ⟨s, rfl, rfl, rfl, h⟩
  | cons c rest ih =>
    intro s h
    obtain ⟨x, y⟩ := c
    by_cases hcond : (full || (!full && (s.content x y != s.old_content x y))) = true
    · obtain ⟨s2, hw, hcont, hold, hauto⟩ := writePageGo_no_auto recCommit s
        (byteRoundTrip (s.content x y)) x y h
      have hcont' : s2.content = s.content := by
        rw [hcont]; exact upd2_same s.content x y
      obtain ⟨s3, hs, hc3, ho3, ha3⟩ := ih s2 hauto
      refine ⟨s3, ?_, hc3.trans hcont', ho3.trans hold, ha3⟩
      show sweepGo recCommit full s ((x, y) :: rest) = _
      unfold sweepGo
      rw [if_pos hcond, hw]
      dsimp only
      rw [hs]
      dsimp only
      rw [hcont', hold]
      simp [List.filter_cons, hcond]
    · obtain ⟨s3, hs, hc3, ho3, ha3⟩ := ih s h
      refine ⟨s3, ?_, hc3, ho3, ha3⟩
      have hcond' : (full || (!full && (s.content x y != s.old_content x y))) = false := by
        simpa using hcond
      show sweepGo recCommit full s ((x, y) :: rest) = _
      unfold sweepGo
      rw [if_neg hcond, hs]
      simp [List.filter_cons, hcond']

/-- C2: `Display.commit` sweeps pages 0..7 outer, columns 0..127 inner
(`commitCells`), issues a data-byte page write exactly at the cells where the
canvas differs from the committed snapshot (at every cell when `full`), and
afterwards the committed snapshot equals the canvas.  Stated for a display
whose own `auto_commit` is off (with it on, `commit` does not return at all,
see the claim about termination). -/
theorem commit_writes_changed_cells (n : Nat) (s : Disp) (full live : Bool)
    (h : s.auto_commit = false) :
    ∃ s2, commitF (n + 1) s full live = some (s2,
        commitCells.filter fun c =>
          full || (!full && (s.content c.1 c.2 != s.old_content c.1 c.2))) ∧
      s2.content = s.content ∧ s2.old_content = s.content := by
  obtain ⟨h1, h2, h3⟩ := setCursorPos_fields s 0 0 false true
  obtain ⟨s3, hs, hc3, ho3, _⟩ := sweepGo_no_auto (fun s' => commitF n s' false true)
    full commitCells (setCursorPos s 0 0 false true) (h3.trans h)
  obtain ⟨g1, g2, g3⟩ := setCursorPos_fields { s3 with old_content := s3.content } 0 0 false true
  refine ⟨setCursorPos { s3 with old_content := s3.content } 0 0 false true, ?_, ?_, ?_⟩
  · unfold commitF
    dsimp only
    rw [hs]
    dsimp only
    rw [h1, h2]
  · rw [g1]
    show s3.content = s.content
    rw [hc3, h1]
  · rw [g2]
    show s3.content = s.content
    rw [hc3, h1]

theorem commit_writes_changed_cells_witness :
    dispPlain.auto_commit = false ∧
    ∃ s2, commitF 1 dispPlain false true = some (s2,
        commitCells.filter fun c =>
          false || (!false && (dispPlain.content c.1 c.2 != dispPlain.old_content c.1 c.2))) ∧
      s2.content = dispPlain.content ∧ s2.old_content = dispPlain.content :=
  ⟨rfl, commit_writes_changed_cells 0 dispPlain false true rfl⟩

theorem sweep_auto_none (recCommit : Disp → Option (Disp × List (Nat × Nat)))
    (x0 y0 : Nat) (cells : List (Nat × Nat)) :
    ∀ s : Disp, s.auto_commit = true →
    (∀ s', s'.auto_commit = true → s'.content x0 y0 ≠ s'.old_content x0 y0 →
      recCommit s' = none) →
    s.content x0 y0 ≠ s.old_content x0 y0 →
    (∃ c ∈ cells, s.content c.1 c.2 ≠ s.old_content c.1 c.2) →
    sweepGo recCommit false s cells = none := by
  induction cells with
  | nil =>
    intro s _ _ _ hmem
    obtain ⟨c, hc, _⟩ := hmem
    exact absurd hc (List.not_mem_nil c)
  | cons c rest ih =>
    intro s hauto hrec hd hmem
    obtain ⟨x, y⟩ := c
    by_cases hxy : s.content x y = s.old_content x y
    · have hcond : (false || (!false && (s.content x y != s.old_content x y))) = false := by
        simp [hxy]
      show sweepGo recCommit false s ((x, y) :: rest) = none
      unfold sweepGo
      rw [if_neg (by rw [hcond]; simp)]
      refine ih s hauto hrec hd ?_
      obtain ⟨c, hc, hcd⟩ := hmem
      rcases List.mem_cons.mp hc with hhd | htl
      · exact absurd hcd (by rw [hhd]; exact fun hk => hk hxy)
      · exact ⟨c, htl, hcd⟩
    · have hcond : (false || (!false && (s.content x y != s.old_content x y))) = true := by
        simp [hxy]
      show sweepGo recCommit false s ((x, y) :: rest) = none
      unfold sweepGo
      rw [if_pos hcond]
      rw [writePageGo_auto recCommit s (byteRoundTrip (s.content x y)) x y hauto]
      obtain ⟨wc, wo, wa⟩ := writeAddr_fields s x y
      have hnone : recCommit { writeAddr s x y with
          content := upd2 (writeAddr s x y).content x y (byteRoundTrip (s.content x y)) } = none := by
        apply hrec
        · exact wa.trans hauto
        · show upd2 (writeAddr s x y).content x y (byteRoundTrip (s.content x y)) x0 y0 ≠ _
          rw [wc]
          show upd2 s.content x y (s.content x y) x0 y0 ≠ _
          rw [upd2_same]
          show s.content x0 y0 ≠ (writeAddr s x y).old_content x0 y0
          rw [wo]
          exact hd
      rw [hnone]

/-- C3 concerns termination of `commit`: the code does NOT terminate when the
display's `auto_commit` is on and some canvas cell differs from the committed
snapshot, because the sweep calls `write_page(commit=True)`, whose own
auto-commit check re-enters `commit` with the snapshot still not updated.
For every amount of fuel the embedded recursion runs out: in Python this is
an unbounded recursion `commit → write_page → commit` ending in
`RecursionError`, contradicting the single-sweep return described by the
spec. -/
theorem commit_auto_commit_nonterminating (fuel : Nat) (s : Disp) (x0 y0 : Nat)
    (ha : s.auto_commit = true) (hd : s.content x0 y0 ≠ s.old_content x0 y0)
    (hx : x0 < 128) (hy : y0 < 8) :
    commitF fuel s false true = none := by
  induction fuel generalizing s with
  | zero => rfl
  | succ n ih =>
    obtain ⟨h1, h2, h3⟩ := setCursorPos_fields s 0 0 false true
    have hnone := sweep_auto_none (fun s' => commitF n s' false true) x0 y0 commitCells
      (setCursorPos s 0 0 false true)
      (h3.trans ha)
      (fun s' ha' hd' => ih s' ha' hd')
      (by rw [h1, h2]; exact hd)
      ⟨(x0, y0), (mem_commitCells x0 y0).mpr ⟨hx, hy⟩, by rw [h1, h2]; exact hd⟩
    unfold commitF
    dsimp only
    rw [hnone]

theorem commit_auto_commit_nonterminating_witness :
    dispOne.auto_commit = true ∧ dispOne.content 0 0 ≠ dispOne.old_content 0 0 ∧
    (0 : Nat) < 128 ∧ (0 : Nat) < 8 ∧ commitF 5 dispOne false true = none :=
  ⟨rfl, by decide, by decide, by decide,
    commit_auto_commit_nonterminating 5 dispOne 0 0 rfl (by decide) (by decide) (by decide)⟩

/-! ### Rasterizer state (`DisplayDraw`)

The rasterizer manipulates the display's canvas through `get_pixel`/`pixel`.
For this layer the canvas is modelled as a boolean function of `(x, row)`;
the source addresses a bit as `content[x][page][pos]` with
`page, pos = divmod(y, 8)`, which is the identity on the row `8*page + pos`.
Coordinates are `Int` (Python integers, possibly negative).  `commits` counts
the `self.display.commit()` calls a drawing operation triggers. -/

structure Draw where
  content : Int → Int → Bool
  old_content : Int → Int → Bool
  cursor : Nat × Nat
  commits : Nat

/-- `DisplayDraw.get_pixel(x, y)`: `None` (absent) outside the canvas,
otherwise the bit at `divmod(y, 8)`. -/
def get_pixelD (d : Draw) (x y : Int) : Option Bool :=
  if x ≥ 128 ∨ x < 0 then none
  else if y ≥ 64 ∨ y < 0 then none
  else some (d.content x (8 * (y / 8) + y % 8))

/-- `DisplayDraw.pixel(x, y, clear)`: silently ignores out-of-canvas
coordinates, otherwise writes `int(not clear)` at `divmod(y, 8)`. -/
def pixelD (d : Draw) (x y : Int) (clear : Bool) : Draw :=
  if x ≥ 128 ∨ x < 0 then d
  else if y ≥ 64 ∨ y < 0 then d
  else { d with content := fun a b =>
    if a = x ∧ b = 8 * (y / 8) + y % 8 then !clear else d.content a b }

/-- The delegation `self.display.commit()` of a rasterizer operation: the
display copies the canvas into the committed snapshot (its internals are the
commit model above); here we record the snapshot copy and count the call. -/
def commitD (d : Draw) : Draw :=
  { d with old_content := d.content, commits := d.commits + 1 }

theorem row_decomp (y : Int) : 8 * (y / 8) + y % 8 = y := Int.ediv_add_emod y 8

theorem get_pixelD_in (d : Draw) (x y : Int)
    (hx0 : 0 ≤ x) (hx : x < 128) (hy0 : 0 ≤ y) (hy : y < 64) :
    get_pixelD d x y = some (d.content x y) := by
  unfold get_pixelD
  rw [if_neg (by omega), if_neg (by omega), row_decomp]

theorem pixelD_in (d : Draw) (x y : Int) (clear : Bool)
    (hx0 : 0 ≤ x) (hx : x < 128) (hy0 : 0 ≤ y) (hy : y < 64) :
    (pixelD d x y clear).content = fun a b =>
      if a = x ∧ b = y then !clear else d.content a b := by
  unfold pixelD
  rw [if_neg (by omega), if_neg (by omega), row_decomp]

/-- C8: for out-of-canvas coordinates, `pixel` returns leaving the whole
`DisplayDraw`/`Display` state (canvas, committed snapshot, cursor) unchanged,
and `get_pixel` returns the absent value `None` rather than a bit.  Both are
total functions: no exception is raised. -/
theorem pixel_out_of_range_noop (d : Draw) (x y : Int) (clear : Bool)
    (h : x < 0 ∨ x ≥ 128 ∨ y < 0 ∨ y ≥ 64) :
    pixelD d x y clear = d ∧ get_pixelD d x y = none := by
  have hcase : (x ≥ 128 ∨ x < 0) ∨ (¬(x ≥ 128 ∨ x < 0) ∧ (y ≥ 64 ∨ y < 0)) := by omega
  refine ⟨?_, ?_⟩
  · unfold pixelD
    rcases hcase with hx | ⟨hx, hy⟩
    · rw [if_pos hx]
    · rw [if_neg hx, if_pos hy]
  · unfold get_pixelD
    rcases hcase with hx | ⟨hx, hy⟩
    · rw [if_pos hx]
    · rw [if_neg hx, if_pos hy]

/-- The empty 128×64 canvas with nothing committed. -/
def drawEmpty : Draw :=
  { content := fun _ _ => false, old_content := fun _ _ => false,
    cursor := (0, 0), commits := 0 }

theorem pixel_out_of_range_noop_witness :
    ((200 : Int) < 0 ∨ (200 : Int) ≥ 128 ∨ (5 : Int) < 0 ∨ (5 : Int) ≥ 64) ∧
    pixelD drawEmpty 200 5 false = drawEmpty ∧ get_pixelD drawEmpty 200 5 = none :=
  ⟨by decide, pixel_out_of_range_noop drawEmpty 200 5 false (by decide)⟩

/-! ### Integer ranges and pixel-fold helpers -/

/-- Python's `range(lo, hi)` over integers, as a list. -/
def intRange (lo hi : Int) : List Int :=
  (List.range (hi - lo).toNat).map fun (k : Nat) => lo + (k : Int)

theorem mem_intRange (i lo hi : Int) : i ∈ intRange lo hi ↔ lo ≤ i ∧ i < hi := by
  unfold intRange
  simp only [List.mem_map, List.mem_range]
  constructor
  · rintro ⟨k, hk, rfl⟩
    omega
  · intro h
    exact ⟨(i - lo).toNat, by omega, by omega⟩

theorem intRange_cons (lo hi : Int) (h : lo < hi) :
    intRange lo hi = lo :: intRange (lo + 1) hi := by
  unfold intRange
  have hn : (hi - lo).toNat = (hi - (lo + 1)).toNat + 1 := by omega
  rw [hn, List.range_succ_eq_map, List.map_cons, List.map_map]
  have hf : ((fun k : Nat => lo + (k : Int)) ∘ Nat.succ) = fun k : Nat => lo + 1 + (k : Int) := by
    funext k
    show lo + ((k : Int) + 1) = lo + 1 + (k : Int)
    ring
  rw [hf]
  simp

theorem pixelD_out (d : Draw) (x y : Int) (clear : Bool)
    (h : x < 0 ∨ x ≥ 128 ∨ y < 0 ∨ y ≥ 64) : pixelD d x y clear = d := by
  unfold pixelD
  by_cases hx : x ≥ 128 ∨ x < 0
  · rw [if_pos hx]
  · rw [if_neg hx, if_pos (by omega)]

theorem get_pixelD_out (d : Draw) (x y : Int)
    (h : x < 0 ∨ x ≥ 128 ∨ y < 0 ∨ y ≥ 64) : get_pixelD d x y = none := by
  unfold get_pixelD
  by_cases hx : x ≥ 128 ∨ x < 0
  · rw [if_pos hx]
  · rw [if_neg hx, if_pos (by omega)]

theorem pixelD_commits (d : Draw) (x y : Int) (clear : Bool) :
    (pixelD d x y clear).commits = d.commits := by
  unfold pixelD
  split
  · rfl
  · split <;> rfl

/-- The value of one pixel write at an in-canvas observation point. -/
theorem pixelD_content_pt (d : Draw) (u v x y : Int) (clear : Bool)
    (hx0 : 0 ≤ x) (hx : x < 128) (hy0 : 0 ≤ y) (hy : y < 64) :
    (pixelD d u v clear).content x y =
      if u = x ∧ v = y then !clear else d.content x y := by
  by_cases hout : u < 0 ∨ u ≥ 128 ∨ v < 0 ∨ v ≥ 64
  · rw [pixelD_out d u v clear hout, if_neg]
    rintro ⟨rfl, rfl⟩
    omega
  · rw [pixelD_in d u v clear (by omega) (by omega) (by omega) (by omega)]
    dsimp only
    by_cases h : u = x ∧ v = y
    · rw [if_pos ⟨h.1.symm, h.2.symm⟩, if_pos h]
    · rw [if_neg (fun hc => h ⟨hc.1.symm, hc.2.symm⟩), if_neg h]

theorem pixelD_content_cases (d : Draw) (u v x y : Int) (clear : Bool) :
    (pixelD d u v clear).content x y = d.content x y ∨
      (pixelD d u v clear).content x y = !clear := by
  unfold pixelD
  split
  · exact Or.inl rfl
  · split
    · exact Or.inl rfl
    · dsimp only
      split
      · exact Or.inr rfl
      · exact Or.inl rfl

/-- Sequencing the `pixel` calls a drawing loop performs. -/
def applyPixels (d : Draw) (l : List (Int × Int)) (clear : Bool) : Draw :=
  l.foldl (fun acc p => pixelD acc p.1 p.2 clear) d

theorem applyPixels_commits (l : List (Int × Int)) (d : Draw) (clear : Bool) :
    (applyPixels d l clear).commits = d.commits := by
  induction l generalizing d with
  | nil => rfl
  | cons p t ih =>
    show (applyPixels (pixelD d p.1 p.2 clear) t clear).commits = d.commits
    rw [ih, pixelD_commits]

theorem applyPixels_keep (l : List (Int × Int)) (d : Draw) (clear : Bool) (x y : Int)
    (h : d.content x y = !clear) : (applyPixels d l clear).content x y = !clear := by
  induction l generalizing d with
  | nil => exact h
  | cons p t ih =>
    show (applyPixels (pixelD d p.1 p.2 clear) t clear).content x y = !clear
    refine ih _ ?_
    rcases pixelD_content_cases d p.1 p.2 x y clear with hc | hc
    · rw [hc, h]
    · exact hc

theorem applyPixels_mem (l : List (Int × Int)) (d : Draw) (clear : Bool) (x y : Int)
    (hmem : (x, y) ∈ l) (hx0 : 0 ≤ x) (hx : x < 128) (hy0 : 0 ≤ y) (hy : y < 64) :
    (applyPixels d l clear).content x y = !clear := by
  induction l generalizing d with
  | nil => exact absurd hmem (List.not_mem_nil _)
  | cons p t ih =>
    show (applyPixels (pixelD d p.1 p.2 clear) t clear).content x y = !clear
    rcases List.mem_cons.mp hmem with rfl | htl
    · refine applyPixels_keep t _ clear x y ?_
      rw [pixelD_content_pt d x y x y clear hx0 hx hy0 hy, if_pos ⟨rfl, rfl⟩]
    · exact ih _ htl

/-! ### Line drawing (`DisplayDraw.line`)

The float arithmetic of the source (`m = float(stop_y-start_y)/float(stop_x-
start_x)`, `y = int(round(m*(x-start_x)+start_y))`) is idealised as exact
rational arithmetic; `round` is Python 2's round-half-away-from-zero. -/

/-- Python 2 `int(round(q))`: round half away from zero. -/
def pyround (q : ℚ) : Int :=
  if 0 ≤ q then ⌊q + 1 / 2⌋ else ⌈q - 1 / 2⌉

/-- The endpoint normalisation of `line`: when `start_x > stop_x` both
endpoints are swapped together. -/
def lineNorm (sx sy tx ty : Int) : Int × Int × Int × Int :=
  if sx > tx then (tx, ty, sx, sy) else (sx, sy, tx, ty)

/-- `m = float(stop_y - start_y) / float(stop_x - start_x)`. -/
def slope (a b c e : Int) : ℚ :=
  ((e : ℚ) - (b : ℚ)) / ((c : ℚ) - (a : ℚ))

/-- `y = int(round(m * (x - start_x) + start_y))` at step `x`. -/
def yStep (m : ℚ) (a b x : Int) : Int :=
  pyround (m * ((x : ℚ) - (a : ℚ)) + (b : ℚ))

/-- The gap-filling range of `line`: `range(old_y+1, y)` when `y >= old_y`,
else `range(y+1, old_y)`. -/
def diffRange (oldY y : Int) : List Int :=
  if y ≥ oldY then intRange (oldY + 1) y else intRange (y + 1) oldY

theorem mem_diffRange (i u v : Int) :
    i ∈ diffRange u v ↔ min u v < i ∧ i < max u v := by
  unfold diffRange
  split <;> rw [mem_intRange] <;> omega

/-- The `pixel` calls of `line`'s main loop, threading `old_y` exactly as the
source does: at each `x`, first the gap rows, then the rounded `y`. -/
def lineStepTrace (m : ℚ) (a b : Int) : Int → List Int → List (Int × Int)
  | _, [] => []
  | oldY, x :: rest =>
    (diffRange oldY (yStep m a b x)).map (fun i => (x, i)) ++
      (x, yStep m a b x) :: lineStepTrace m a b (yStep m a b x) rest

/-- The full pixel-call trace of `line`'s non-vertical case:
`old_y` starts at `start_y` and `x` sweeps `range(start_x, stop_x + 1)`
after normalisation. -/
def lineTrace (sx sy tx ty : Int) : List (Int × Int) :=
  let n := lineNorm sx sy tx ty
  lineStepTrace (slope n.1 n.2.1 n.2.2.1 n.2.2.2) n.1 n.2.1 n.2.1
    (intRange n.1 (n.2.2.1 + 1))

/-- `DisplayDraw.line(start_x, start_y, stop_x, stop_y, clear)`.  The vertical
special case returns before the auto-commit check; the general case commits
when the rasterizer's `auto_commit` is set. -/
def lineD (auto : Bool) (d : Draw) (sx sy tx ty : Int) (clear : Bool) : Draw :=
  if sx = tx then
    applyPixels d
      ((if ty ≥ sy then intRange sy (ty + 1) else intRange ty (sy + 1)).map
        fun yy => (sx, yy)) clear
  else
    let d2 := applyPixels d (lineTrace sx sy tx ty) clear
    if auto then commitD d2 else d2

theorem lineStepTrace_mem (m : ℚ) (a b x : Int) :
    ∀ (xs : List Int) (oldY : Int), x ∈ xs →
    (x, yStep m a b x) ∈ lineStepTrace m a b oldY xs := by
  intro xs
  induction xs with
  | nil => exact fun oldY h => absurd h (List.not_mem_nil x)
  | cons z rest ih =>
    intro oldY h
    unfold lineStepTrace
    rcases List.mem_cons.mp h with rfl | htl
    · exact List.mem_append_right _ (List.mem_cons_self _ _)
    · exact List.mem_append_right _ (List.mem_cons_of_mem _ (ih _ htl))

theorem lineStepTrace_between (m : ℚ) (a b c x i : Int) :
    ∀ (n : Nat) (t oldY : Int), (c + 1 - t).toNat = n → t ≤ x → x ≤ c →
    (x = t → min oldY (yStep m a b x) < i ∧ i < max oldY (yStep m a b x)) →
    (t < x → min (yStep m a b (x - 1)) (yStep m a b x) < i ∧
      i < max (yStep m a b (x - 1)) (yStep m a b x)) →
    (x, i) ∈ lineStepTrace m a b oldY (intRange t (c + 1)) := by
  intro n
  induction n with
  | zero => intro t oldY hn htx hxc _ _; exact absurd hn (by omega)
  | succ k ih =>
    intro t oldY hn htx hxc hhead htail
    rw [intRange_cons t (c + 1) (by omega)]
    unfold lineStepTrace
    by_cases hxt : x = t
    · subst hxt
      refine List.mem_append_left _ ?_
      exact List.mem_map.mpr ⟨i, (mem_diffRange i oldY (yStep m a b x)).mpr (hhead rfl), rfl⟩
    · refine List.mem_append_right _ (List.mem_cons_of_mem _ ?_)
      refine ih (t + 1) (yStep m a b t) (by omega) (by omega) hxc ?_ ?_
      · intro hx2
        have h := htail (by omega)
        rw [show x - 1 = t by omega] at h
        exact h
      · intro hx2
        exact htail (by omega)

/-- C4: in the non-vertical case, for each integer step `x` of the normalised
range, `line` plots the rounded `y(x) = round(m*(x-x0)+y0)` and additionally
every integer row strictly between the previous step's rounded `y(x-1)` and
`y(x)`, so no vertical gap is left between consecutive columns; every plotted
in-canvas pixel ends up set on the canvas. -/
theorem line_fills_intermediate_rows (sx sy tx ty a b c e x i : Int)
    (hne : sx ≠ tx) (hnorm : lineNorm sx sy tx ty = (a, b, c, e))
    (hax : a ≤ x) (hxc : x ≤ c) :
    (x, yStep (slope a b c e) a b x) ∈ lineTrace sx sy tx ty ∧
    (a < x →
      min (yStep (slope a b c e) a b (x - 1)) (yStep (slope a b c e) a b x) < i →
      i < max (yStep (slope a b c e) a b (x - 1)) (yStep (slope a b c e) a b x) →
      (x, i) ∈ lineTrace sx sy tx ty) ∧
    (∀ (d : Draw) (auto clear : Bool) (px py : Int),
      (px, py) ∈ lineTrace sx sy tx ty → 0 ≤ px → px < 128 → 0 ≤ py → py < 64 →
      (lineD auto d sx sy tx ty clear).content px py = !clear) := by
  have hlt : lineTrace sx sy tx ty =
      lineStepTrace (slope a b c e) a b b (intRange a (c + 1)) := by
    unfold lineTrace
    rw [hnorm]
  refine ⟨?_, ?_, ?_⟩
  · rw [hlt]
    exact lineStepTrace_mem (slope a b c e) a b x _ b ((mem_intRange x a (c + 1)).mpr ⟨hax, by omega⟩)
  · intro hax2 h1 h2
    rw [hlt]
    refine lineStepTrace_between (slope a b c e) a b c x i ((c + 1 - a).toNat) a b rfl hax hxc ?_ ?_
    · intro heq
      exact absurd heq (by omega)
    · intro _
      exact ⟨h1, h2⟩
  · intro d auto clear px py hmem hb1 hb2 hb3 hb4
    have hset := applyPixels_mem (lineTrace sx sy tx ty) d clear px py hmem hb1 hb2 hb3 hb4
    unfold lineD
    rw [if_neg hne]
    dsimp only
    split
    · exact hset
    · exact hset

theorem line_fills_intermediate_rows_witness :
    ((0 : Int) ≠ 3) ∧ lineNorm 0 0 3 9 = (0, 0, 3, 9) ∧
    (1, yStep (slope 0 0 3 9) 0 0 1) ∈ lineTrace 0 0 3 9 ∧
    (1, 1) ∈ lineTrace 0 0 3 9 ∧
    (lineD true drawEmpty 0 0 3 9 false).content 1 1 = true := by
  have hy0 : yStep (slope 0 0 3 9) 0 0 0 = 0 := by
    unfold yStep slope pyround
    norm_num
  have hy1 : yStep (slope 0 0 3 9) 0 0 1 = 3 := by
    unfold yStep slope pyround
    norm_num
  have h := line_fills_intermediate_rows 0 0 3 9 0 0 3 9 1 1
    (by decide) (by decide) (by decide) (by decide)
  have hmem : (1, 1) ∈ lineTrace 0 0 3 9 := by
    refine h.2.1 (by decide) ?_ ?_
    · rw [show (1 : Int) - 1 = 0 by decide, hy0, hy1]
      decide
    · rw [show (1 : Int) - 1 = 0 by decide, hy0, hy1]
      decide
  exact ⟨by decide, by decide, h.1, hmem,
    h.2.2 drawEmpty true false 1 1 hmem (by decide) (by decide) (by decide) (by decide)⟩

/-! ### Rectangle (`DisplayDraw.rectangle`)

`x_range = range(start_x - 1, stop_x + 1) if stop_x >= start_x else
range(stop_x - 1, start_x + 1)` and likewise for `y_range`: both ranges run
from one BELOW the smaller coordinate up to the larger one inclusive. -/

def rectangleD (auto : Bool) (d : Draw) (sx sy tx ty : Int) (fill clear : Bool) : Draw :=
  let x_range := if tx ≥ sx then intRange (sx - 1) (tx + 1) else intRange (tx - 1) (sx + 1)
  let y_range := if ty ≥ sy then intRange (sy - 1) (ty + 1) else intRange (ty - 1) (sy + 1)
  let d1 := x_range.foldl (fun acc xx =>
    if fill then y_range.foldl (fun acc2 yy => pixelD acc2 xx yy clear) acc
    else pixelD (pixelD acc xx sy clear) xx ty clear) d
  let d2 :=
    if !fill then
      y_range.foldl (fun acc yy => pixelD (pixelD acc sx yy clear) tx yy clear) d1
    else d1
  if auto then commitD d2 else d2

theorem foldl_pixel_col (clear : Bool) (x y : Int)
    (hx0 : 0 ≤ x) (hx : x < 128) (hy0 : 0 ≤ y) (hy : y < 64) :
    ∀ (l : List Int) (a : Draw) (cx : Int),
    (l.foldl (fun acc2 yy => pixelD acc2 cx yy clear) a).content x y =
      if cx = x ∧ y ∈ l then !clear else a.content x y := by
  intro l
  induction l with
  | nil =>
    intro a cx
    rw [if_neg (fun hc => absurd hc.2 (List.not_mem_nil y))]
    rfl
  | cons z rest ih =>
    intro a cx
    show (rest.foldl _ (pixelD a cx z clear)).content x y = _
    rw [ih (pixelD a cx z clear) cx]
    by_cases hc : cx = x ∧ y ∈ rest
    · rw [if_pos hc, if_pos ⟨hc.1, List.mem_cons_of_mem z hc.2⟩]
    · rw [if_neg hc, pixelD_content_pt a cx z x y clear hx0 hx hy0 hy]
      by_cases hz : cx = x ∧ z = y
      · rw [if_pos hz, if_pos ⟨hz.1, by rw [← hz.2]; exact List.mem_cons_self z rest⟩]
      · rw [if_neg hz, if_neg]
        rintro ⟨hcx, hmem⟩
        rcases List.mem_cons.mp hmem with hzy | hyr
        · exact hz ⟨hcx, hzy.symm⟩
        · exact hc ⟨hcx, hyr⟩

theorem foldl_pixel_fill (clear : Bool) (x y : Int)
    (hx0 : 0 ≤ x) (hx : x < 128) (hy0 : 0 ≤ y) (hy : y < 64) :
    ∀ (xl : List Int) (yl : List Int) (a : Draw),
    ((xl.foldl (fun acc xx => yl.foldl (fun acc2 yy => pixelD acc2 xx yy clear) acc) a).content x y) =
      if x ∈ xl ∧ y ∈ yl then !clear else a.content x y := by
  intro xl
  induction xl with
  | nil =>
    intro yl a
    rw [if_neg (fun hc => absurd hc.1 (List.not_mem_nil x))]
    rfl
  | cons z rest ih =>
    intro yl a
    show (rest.foldl _ (yl.foldl _ a)).content x y = _
    rw [ih yl (yl.foldl (fun acc2 yy => pixelD acc2 z yy clear) a)]
    by_cases hc : x ∈ rest ∧ y ∈ yl
    · rw [if_pos hc, if_pos ⟨List.mem_cons_of_mem z hc.1, hc.2⟩]
    · rw [if_neg hc, foldl_pixel_col clear x y hx0 hx hy0 hy yl a z]
      by_cases hz : z = x ∧ y ∈ yl
      · rw [if_pos hz, if_pos ⟨by rw [hz.1]; exact List.mem_cons_self x rest, hz.2⟩]
      · rw [if_neg hz, if_neg]
        rintro ⟨hmem, hyl⟩
        rcases List.mem_cons.mp hmem with hxz | hxr
        · exact hz ⟨hxz.symm, hyl⟩
        · exact hc ⟨hxr, hyl⟩

/-- C6 as frozen is false on the code: `rectangle(1,1,2,2,fill=True)` also
sets the pixel `(0,0)`, which lies outside the inclusive bounding box
`[1,2]×[1,2]` of the two corners. -/
theorem rectangle_fill_exact_box_counterexample :
    ¬ (∀ x y : Int, 0 ≤ x → x < 128 → 0 ≤ y → y < 64 →
      ((rectangleD false drawEmpty 1 1 2 2 true false).content x y = true ↔
        (1 ≤ x ∧ x ≤ 2 ∧ 1 ≤ y ∧ y ≤ 2))) := by
  intro h
  have h0 := (h 0 0 (by decide) (by decide) (by decide) (by decide)).mp (by decide)
  exact absurd h0 (by decide)

/-- C6 amended: `rectangle(x0,y0,x1,y1,fill=True)` sets exactly the in-canvas
pixels of the box running from `min - 1` (one past the smaller corner, in the
negative direction) to `max` inclusive on both axes, and leaves every pixel
outside that box unchanged. -/
theorem rectangle_fill_one_past_box (auto : Bool) (d : Draw) (sx sy tx ty x y : Int)
    (clear : Bool) (hx0 : 0 ≤ x) (hx : x < 128) (hy0 : 0 ≤ y) (hy : y < 64) :
    (rectangleD auto d sx sy tx ty true clear).content x y =
      if min sx tx - 1 ≤ x ∧ x ≤ max sx tx ∧ min sy ty - 1 ≤ y ∧ y ≤ max sy ty
      then !clear else d.content x y := by
  unfold rectangleD
  dsimp only
  have hx_range : ∀ i : Int,
      (i ∈ if tx ≥ sx then intRange (sx - 1) (tx + 1) else intRange (tx - 1) (sx + 1)) ↔
        (min sx tx - 1 ≤ i ∧ i ≤ max sx tx) := by
    intro i
    split <;> rw [mem_intRange] <;> omega
  have hy_range : ∀ i : Int,
      (i ∈ if ty ≥ sy then intRange (sy - 1) (ty + 1) else intRange (ty - 1) (sy + 1)) ↔
        (min sy ty - 1 ≤ i ∧ i ≤ max sy ty) := by
    intro i
    split <;> rw [mem_intRange] <;> omega
  have hcore :
      ((if tx ≥ sx then intRange (sx - 1) (tx + 1) else intRange (tx - 1) (sx + 1)).foldl
        (fun acc xx =>
          if true then
            (if ty ≥ sy then intRange (sy - 1) (ty + 1) else intRange (ty - 1) (sy + 1)).foldl
              (fun acc2 yy => pixelD acc2 xx yy clear) acc
          else pixelD (pixelD acc xx sy clear) xx ty clear) d).content x y =
      if min sx tx - 1 ≤ x ∧ x ≤ max sx tx ∧ min sy ty - 1 ≤ y ∧ y ≤ max sy ty
      then !clear else d.content x y := by
    simp only [if_pos]
    rw [foldl_pixel_fill clear x y hx0 hx hy0 hy]
    by_cases hc : (x ∈ if tx ≥ sx then intRange (sx - 1) (tx + 1) else intRange (tx - 1) (sx + 1)) ∧
        (y ∈ if ty ≥ sy then intRange (sy - 1) (ty + 1) else intRange (ty - 1) (sy + 1))
    · rw [if_pos hc, if_pos]
      obtain ⟨h1, h2⟩ := (hx_range x).mp hc.1
      obtain ⟨h3, h4⟩ := (hy_range y).mp hc.2
      exact ⟨h1, h2, h3, h4⟩
    · rw [if_neg hc, if_neg]
      rintro ⟨h1, h2, h3, h4⟩
      exact hc ⟨(hx_range x).mpr ⟨h1, h2⟩, (hy_range y).mpr ⟨h3, h4⟩⟩
  split
  · exact hcore
  · exact hcore

theorem rectangle_fill_one_past_box_witness :
    (0 ≤ (0 : Int)) ∧ ((0 : Int) < 128) ∧ (0 ≤ (0 : Int)) ∧ ((0 : Int) < 64) ∧
    (rectangleD false drawEmpty 1 1 2 2 true false).content 0 0 =
      if min 1 2 - 1 ≤ (0 : Int) ∧ (0 : Int) ≤ max 1 2 ∧ min 1 2 - 1 ≤ (0 : Int) ∧
        (0 : Int) ≤ max 1 2 then !false else drawEmpty.content 0 0 :=
  ⟨by decide, by decide, by decide, by decide,
    rectangle_fill_one_past_box false drawEmpty 1 1 2 2 0 0 false
      (by decide) (by decide) (by decide) (by decide)⟩

/-! ### Which drawing calls trigger the auto-commit -/

theorem foldl_commits {α : Type} (f : Draw → α → Draw)
    (hf : ∀ (a : Draw) (e : α), (f a e).commits = a.commits) :
    ∀ (l : List α) (a : Draw), (l.foldl f a).commits = a.commits := by
  intro l
  induction l with
  | nil => exact fun a => rfl
  | cons e t ih =>
    intro a
    show (t.foldl f (f a e)).commits = a.commits
    rw [ih (f a e), hf]

/-- C7 as frozen is false on the code: with the rasterizer's `auto_commit`
enabled, `pixel(1,1)` and the vertical line `line(0,0,0,5)` trigger no commit
at all — `pixel` has no auto-commit check and the vertical special case of
`line` returns before reaching it. -/
theorem draw_auto_commit_counterexample :
    ¬(0 < (pixelD drawEmpty 1 1 false).commits) ∧
    ¬(0 < (lineD true drawEmpty 0 0 0 5 false).commits) := by
  exact ⟨by decide, by decide⟩

/-- C7 amended: with `auto_commit` enabled, the general (non-vertical) case of
`line` and `rectangle` trigger exactly one immediate commit, but `pixel` and
the vertical special case of `line` never commit; with `auto_commit` disabled
no drawing call commits (all the counts below collapse to `d.commits`). -/
theorem auto_commit_per_operation (d : Draw) (auto clear fill : Bool)
    (x y sx sy tx ty vy0 vy1 : Int) (h : sx ≠ tx) :
    (pixelD d x y clear).commits = d.commits ∧
    (lineD auto d x vy0 x vy1 clear).commits = d.commits ∧
    (lineD auto d sx sy tx ty clear).commits = d.commits + (if auto then 1 else 0) ∧
    (rectangleD auto d sx sy tx ty fill clear).commits = d.commits + (if auto then 1 else 0) := by
  refine ⟨pixelD_commits d x y clear, ?_, ?_, ?_⟩
  · unfold lineD
    rw [if_pos rfl]
    exact applyPixels_commits _ d clear
  · unfold lineD
    rw [if_neg h]
    dsimp only
    cases auto with
    | false =>
      show (applyPixels d (lineTrace sx sy tx ty) clear).commits = d.commits + 0
      rw [applyPixels_commits, Nat.add_zero]
    | true =>
      show (applyPixels d (lineTrace sx sy tx ty) clear).commits + 1 = d.commits + 1
      rw [applyPixels_commits]
  · unfold rectangleD
    dsimp only
    have hfin : ∀ d2 : Draw, d2.commits = d.commits →
        (if auto then commitD d2 else d2).commits = d.commits + (if auto then 1 else 0) := by
      intro d2 h2
      cases auto
      · simpa using h2
      · simp [commitD, h2]
    apply hfin
    have hstep : ∀ (yl : List Int) (a : Draw) (xx : Int),
        (if fill then yl.foldl (fun acc2 yy => pixelD acc2 xx yy clear) a
         else pixelD (pixelD a xx sy clear) xx ty clear).commits = a.commits := by
      intro yl a xx
      split
      · exact foldl_commits _ (fun a2 e => pixelD_commits a2 xx e clear) yl a
      · rw [pixelD_commits, pixelD_commits]
    have h1 : ∀ (xl yl : List Int) (a : Draw),
        (xl.foldl (fun acc xx =>
          if fill then yl.foldl (fun acc2 yy => pixelD acc2 xx yy clear) acc
          else pixelD (pixelD acc xx sy clear) xx ty clear) a).commits = a.commits :=
      fun xl yl a => foldl_commits _ (fun a2 e => hstep yl a2 e) xl a
    have h2 : ∀ (yl : List Int) (a : Draw),
        (yl.foldl (fun acc yy => pixelD (pixelD acc sx yy clear) tx yy clear) a).commits
          = a.commits :=
      fun yl a => foldl_commits _
        (fun a2 e => by rw [pixelD_commits, pixelD_commits]) yl a
    split
    · rw [h2, h1]
    · rw [h1]

theorem auto_commit_per_operation_witness :
    ((0 : Int) ≠ 3) ∧
    ((pixelD drawEmpty 1 1 false).commits = drawEmpty.commits ∧
      (lineD true drawEmpty 1 0 1 5 false).commits = drawEmpty.commits ∧
      (lineD true drawEmpty 0 0 3 9 false).commits =
        drawEmpty.commits + (if true then 1 else 0) ∧
      (rectangleD true drawEmpty 0 0 3 9 true false).commits =
        drawEmpty.commits + (if true then 1 else 0)) :=
  ⟨by decide, auto_commit_per_operation drawEmpty true false true 1 1 0 0 3 9 0 5 (by decide)⟩

/-! ### Flood fill (`DisplayDraw.fill_area`)

The source keeps a LIFO work list (`queue.append` + `queue.pop()` popping the
last element); we model the stack with its head as the top, so the four
neighbour pushes appear in reverse order.  `drawing_queue` is the visited
list.  Python's `not None` is `True` and `None != b` is `True` for a bool
`b`, hence `pyNot`/`pyNeq` below. -/

/-- Python `not pixel` for the `Optional[bool]` result of `get_pixel`. -/
def pyNot (o : Option Bool) : Bool :=
  match o with
  | none => true
  | some b => !b

/-- Python `pixel != stop_color` for the `Optional[bool]` result of
`get_pixel` against a bool: `None != b` is `True`. -/
def pyNeq (o : Option Bool) (b : Bool) : Bool :=
  match o with
  | none => true
  | some c => c != b

/-- The bounds check of the flood loop:
`x < 0 or x > self.display.columns or y < 0 or y > self.display.rows`
with `columns = 128`, `rows = 64` — strict comparisons, one past the last
valid column/row. -/
def floodRejectB (x y : Int) : Bool :=
  decide (x < 0) || decide (x > 128) || decide (y < 0) || decide (y > 64)

/-- The four neighbours pushed for an accepted pixel. -/
def nbrs (p : Int × Int) : List (Int × Int) :=
  [(p.1, p.2 + 1), (p.1, p.2 - 1), (p.1 + 1, p.2), (p.1 - 1, p.2)]

/-- The `while queue:` loop of `fill_area`, with fuel; returns the visited
list (`drawing_queue`), or `none` if the fuel runs out. -/
def floodLoop (d : Draw) (stop_color : Bool) :
    Nat → List (Int × Int) → List (Int × Int) → Option (List (Int × Int))
  | _, [], dq => some dq
  | 0, _ :: _, _ => none
  | fuel + 1, (x, y) :: rest, dq =>
    if floodRejectB x y then floodLoop d stop_color fuel rest dq
    else if (x, y) ∈ dq then floodLoop d stop_color fuel rest dq
    else if pyNeq (get_pixelD d x y) stop_color then
      floodLoop d stop_color fuel
        ((x - 1, y) :: (x + 1, y) :: (x, y - 1) :: (x, y + 1) :: rest) (dq ++ [(x, y)])
    else floodLoop d stop_color fuel rest dq

/-- The visited set of `fill_area(x, y, ...)` (empty list also when the fuel
runs out). -/
def floodVisited (d : Draw) (fuel : Nat) (x y : Int) : List (Int × Int) :=
  (floodLoop d (pyNot (get_pixelD d x y)) fuel [(x, y)] []).getD []

/-- `min(list)` of the source; the source raises `ValueError` on `[]`, which
callers must rule out before using this. -/
def intListMin (l : List Int) : Int :=
  match l with
  | [] => 0
  | h :: t => t.foldl min h

/-- `max(list)` of the source; same caveat as `intListMin`. -/
def intListMax (l : List Int) : Int :=
  match l with
  | [] => 0
  | h :: t => t.foldl max h

/-- Result of `fill_area`: the flood may run out of fuel, crash with
`ValueError` (`min`/`max` over the empty visited list), or succeed. -/
inductive FillOutcome where
  | outOfFuel : FillOutcome
  | emptyMinError : FillOutcome
  | ok : Draw → FillOutcome

/-- `DisplayDraw.fill_area(x, y, pattern)`: flood from the seed against
`stop_color = not get_pixel(x, y)`, then repaint every visited pixel with
`not pattern(x - MIN_X, y - MIN_Y)`.  The source computes `MIN_X`, `MIN_Y`
(and the unused `MAX_X`, `MAX_Y`) with `min`/`max` over the visited list,
which raises `ValueError` when the flood visited nothing. -/
def fillAreaD (fuel : Nat) (d : Draw) (x y : Int) (pattern : Int → Int → Bool) :
    FillOutcome :=
  let stop_color := pyNot (get_pixelD d x y)
  match floodLoop d stop_color fuel [(x, y)] [] with
  | none => .outOfFuel
  | some [] => .emptyMinError
  | some dq =>
    let minX := intListMin (dq.map Prod.fst)
    let minY := intListMin (dq.map Prod.snd)
    .ok (dq.foldl (fun acc p =>
      pixelD acc p.1 p.2 (!(pattern (p.1 - minX) (p.2 - minY)))) d)

/-- C5's scenario in the code: a seed outside the canvas (here `(200, 5)`) is
rejected by the bounds check, the flood visits nothing, and `fill_area`
reaches `min([])`, an unguarded `ValueError` — for every positive fuel and
every pattern. -/
theorem fill_area_empty_flood_value_error (n : Nat) (pattern : Int → Int → Bool) :
    fillAreaD (n + 1) drawEmpty 200 5 pattern = FillOutcome.emptyMinError := by
  unfold fillAreaD
  have h1 : floodLoop drawEmpty (pyNot (get_pixelD drawEmpty 200 5)) (n + 1) [(200, 5)] [] =
      some [] := by
    unfold floodLoop
    rw [if_pos (by decide)]
    cases n <;> rfl
  dsimp only
  rw [h1]

/-! Worklist invariant: every visited pixel's neighbours are, at the end of
the flood, themselves visited, rejected by the bounds check, or of the stop
color. -/

theorem floodLoop_closure (d : Draw) (stop_color : Bool) :
    ∀ (fuel : Nat) (queue dq V : List (Int × Int)),
    floodLoop d stop_color fuel queue dq = some V →
    (∀ p ∈ dq, ∀ q ∈ nbrs p, q ∈ queue ∨ q ∈ dq ∨ floodRejectB q.1 q.2 = true ∨
      pyNeq (get_pixelD d q.1 q.2) stop_color = false) →
    dq ⊆ V ∧ ∀ p ∈ V, ∀ q ∈ nbrs p, q ∈ V ∨ floodRejectB q.1 q.2 = true ∨
      pyNeq (get_pixelD d q.1 q.2) stop_color = false := by
  intro fuel
  induction fuel with
  | zero =>
    intro queue dq V hrun hinv
    match queue, hrun with
    | [], hrun =>
      have hV : dq = V := by
        injection hrun
      subst hV
      refine ⟨fun p hp => hp, fun p hp q hq => ?_⟩
      rcases hinv p hp q hq with hc | hc | hc | hc
      · exact absurd hc (List.not_mem_nil q)
      · exact Or.inl hc
      · exact Or.inr (Or.inl hc)
      · exact Or.inr (Or.inr hc)
  | succ k ih =>
    intro queue dq V hrun hinv
    match queue with
    | [] =>
      have hV : dq = V := by
        injection hrun
      subst hV
      refine ⟨fun p hp => hp, fun p hp q hq => ?_⟩
      rcases hinv p hp q hq with hc | hc | hc | hc
      · exact absurd hc (List.not_mem_nil q)
      · exact Or.inl hc
      · exact Or.inr (Or.inl hc)
      · exact Or.inr (Or.inr hc)
    | (x, y) :: rest =>
      rw [floodLoop] at hrun
      by_cases hrej : floodRejectB x y = true
      · rw [if_pos hrej] at hrun
        refine ih rest dq V hrun ?_
        intro p hp q hq
        rcases hinv p hp q hq with hc | hc | hc | hc
        · rcases List.mem_cons.mp hc with hq1 | hq2
          · exact Or.inr (Or.inr (Or.inl (by rw [hq1]; exact hrej)))
          · exact Or.inl hq2
        · exact Or.inr (Or.inl hc)
        · exact Or.inr (Or.inr (Or.inl hc))
        · exact Or.inr (Or.inr (Or.inr hc))
      · rw [if_neg hrej] at hrun
        by_cases hmem : (x, y) ∈ dq
        · rw [if_pos hmem] at hrun
          refine ih rest dq V hrun ?_
          intro p hp q hq
          rcases hinv p hp q hq with hc | hc | hc | hc
          · rcases List.mem_cons.mp hc with hq1 | hq2
            · exact Or.inr (Or.inl (by rw [hq1]; exact hmem))
            · exact Or.inl hq2
          · exact Or.inr (Or.inl hc)
          · exact Or.inr (Or.inr (Or.inl hc))
          · exact Or.inr (Or.inr (Or.inr hc))
        · rw [if_neg hmem] at hrun
          by_cases hcol : pyNeq (get_pixelD d x y) stop_color = true
          · rw [if_pos hcol] at hrun
            have hsub : dq ⊆ dq ++ [(x, y)] := fun a ha => List.mem_append_left _ ha
            have hres := ih _ _ V hrun ?_
            · exact ⟨fun a ha => hres.1 (hsub ha), hres.2⟩
            · intro p hp q hq
              rcases List.mem_append.mp hp with hp1 | hp2
              · rcases hinv p hp1 q hq with hc | hc | hc | hc
                · rcases List.mem_cons.mp hc with hq1 | hq2
                  · refine Or.inr (Or.inl ?_)
                    rw [hq1]
                    exact List.mem_append_right _ (List.mem_singleton.mpr rfl)
                  · exact Or.inl (by
                      show q ∈ _ :: _ :: _ :: _ :: rest
                      exact List.mem_cons_of_mem _ (List.mem_cons_of_mem _
                        (List.mem_cons_of_mem _ (List.mem_cons_of_mem _ hq2))))
                · exact Or.inr (Or.inl (hsub hc))
                · exact Or.inr (Or.inr (Or.inl hc))
                · exact Or.inr (Or.inr (Or.inr hc))
              · have hpxy : p = (x, y) := List.mem_singleton.mp hp2
                subst hpxy
                refine Or.inl ?_
                have hq' : q = (x, y + 1) ∨ q = (x, y - 1) ∨ q = (x + 1, y) ∨
                    q = (x - 1, y) := by
                  simpa [nbrs] using hq
                show q ∈ _ :: _ :: _ :: _ :: rest
                rcases hq' with rfl | rfl | rfl | rfl
                · exact List.mem_cons_of_mem _ (List.mem_cons_of_mem _
                    (List.mem_cons_of_mem _ (List.mem_cons_self _ _)))
                · exact List.mem_cons_of_mem _ (List.mem_cons_of_mem _
                    (List.mem_cons_self _ _))
                · exact List.mem_cons_of_mem _ (List.mem_cons_self _ _)
                · exact List.mem_cons_self _ _
          · rw [if_neg hcol] at hrun
            have hcol' : pyNeq (get_pixelD d x y) stop_color = false :=
              Bool.not_eq_true _ ▸ eq_false_of_ne_true hcol
            refine ih rest dq V hrun ?_
            intro p hp q hq
            rcases hinv p hp q hq with hc | hc | hc | hc
            · rcases List.mem_cons.mp hc with hq1 | hq2
              · exact Or.inr (Or.inr (Or.inr (by rw [hq1]; exact hcol')))
              · exact Or.inl hq2
            · exact Or.inr (Or.inl hc)
            · exact Or.inr (Or.inr (Or.inl hc))
            · exact Or.inr (Or.inr (Or.inr hc))

theorem le_foldl_max : ∀ (t : List Int) (init : Int), init ≤ t.foldl max init := by
  intro t
  induction t with
  | nil => exact fun init => le_refl init
  | cons b t2 ih =>
    intro init
    calc init ≤ max init b := le_max_left init b
    _ ≤ t2.foldl max (max init b) := ih (max init b)

theorem mem_le_foldl_max (a : Int) :
    ∀ (t : List Int) (init : Int), (a = init ∨ a ∈ t) → a ≤ t.foldl max init := by
  intro t
  induction t with
  | nil =>
    intro init h
    rcases h with rfl | h
    · exact le_refl a
    · exact absurd h (List.not_mem_nil a)
  | cons b t2 ih =>
    intro init h
    show a ≤ t2.foldl max (max init b)
    rcases h with rfl | h
    · exact le_trans (le_max_left a b) (le_foldl_max t2 (max a b))
    · rcases List.mem_cons.mp h with rfl | h2
      · exact le_trans (le_max_right init a) (le_foldl_max t2 (max init a))
      · exact ih (max init b) (Or.inr h2)

theorem mem_le_intListMax (a : Int) (l : List Int) (h : a ∈ l) : a ≤ intListMax l := by
  match l with
  | [] => exact absurd h (List.not_mem_nil a)
  | b :: t =>
    rcases List.mem_cons.mp h with rfl | h2
    · exact mem_le_foldl_max a t a (Or.inl rfl)
    · exact mem_le_foldl_max a t b (Or.inr h2)

/-- C10: the flood exploration rejects a coordinate only under the strict
checks `x < 0 ∨ x > 128 ∨ y < 0 ∨ y > 64`; the absent `get_pixel` result for
out-of-canvas coordinates never equals the boolean stop color; hence whenever
the visited region contains a pixel of the last column 127 (resp. last row
63), the one-past-the-edge neighbour with `x = 128` (resp. `y = 64`) is also
visited, the visited x-maximum used for the bounding box reaches 128, and the
final `pixel` write at such coordinates is silently ignored. -/
theorem flood_fill_edge_overflow (d : Draw) (fuel : Nat) (x0 y0 x y : Int)
    (hy0 : 0 ≤ y) (hy64 : y ≤ 64) (hx0 : 0 ≤ x) (hx128 : x ≤ 128)
    (hR : (127, y) ∈ floodVisited d fuel x0 y0)
    (hB : (x, 63) ∈ floodVisited d fuel x0 y0) :
    (∀ a b : Int, floodRejectB a b = true ↔ (a < 0 ∨ a > 128 ∨ b < 0 ∨ b > 64)) ∧
    (∀ (a b : Int) (c : Bool), a < 0 ∨ a ≥ 128 ∨ b < 0 ∨ b ≥ 64 →
      pyNeq (get_pixelD d a b) c = true) ∧
    (128, y) ∈ floodVisited d fuel x0 y0 ∧
    (x, 64) ∈ floodVisited d fuel x0 y0 ∧
    128 ≤ intListMax ((floodVisited d fuel x0 y0).map Prod.fst) ∧
    (∀ (d2 : Draw) (c : Bool) (b : Int), pixelD d2 128 b c = d2) ∧
    (∀ (d2 : Draw) (c : Bool) (a : Int), pixelD d2 a 64 c = d2) := by
  have hmain : ∀ p ∈ floodVisited d fuel x0 y0, ∀ q ∈ nbrs p,
      q ∈ floodVisited d fuel x0 y0 ∨ floodRejectB q.1 q.2 = true ∨
      pyNeq (get_pixelD d q.1 q.2) (pyNot (get_pixelD d x0 y0)) = false := by
    rcases hrun : floodLoop d (pyNot (get_pixelD d x0 y0)) fuel [(x0, y0)] [] with _ | V
    · intro p hp
      unfold floodVisited at hp
      rw [hrun] at hp
      exact absurd hp (List.not_mem_nil p)
    · have hcl := floodLoop_closure d (pyNot (get_pixelD d x0 y0)) fuel [(x0, y0)] [] V hrun
        (fun p hp => absurd hp (List.not_mem_nil p))
      intro p hp q hq
      unfold floodVisited at hp ⊢
      rw [hrun] at hp ⊢
      exact hcl.2 p hp q hq
  have hRmem : (128, y) ∈ floodVisited d fuel x0 y0 := by
    have hnb : ((128 : Int), y) ∈ nbrs (127, y) := by
      simp [nbrs]
    rcases hmain (127, y) hR (128, y) hnb with hc | hc | hc
    · exact hc
    · exfalso
      simp only [floodRejectB, Bool.or_eq_true, decide_eq_true_eq] at hc
      omega
    · exfalso
      rw [get_pixelD_out d 128 y (by omega)] at hc
      simp [pyNeq] at hc
  have hBmem : (x, (64 : Int)) ∈ floodVisited d fuel x0 y0 := by
    have hnb : (x, (64 : Int)) ∈ nbrs (x, 63) := by
      simp [nbrs]
    rcases hmain (x, 63) hB (x, 64) hnb with hc | hc | hc
    · exact hc
    · exfalso
      simp only [floodRejectB, Bool.or_eq_true, decide_eq_true_eq] at hc
      omega
    · exfalso
      rw [get_pixelD_out d x 64 (by omega)] at hc
      simp [pyNeq] at hc
  refine ⟨?_, ?_, hRmem, hBmem, ?_, ?_, ?_⟩
  · intro a b
    simp only [floodRejectB, Bool.or_eq_true, decide_eq_true_eq]
    tauto
  · intro a b c h
    rw [get_pixelD_out d a b h]
    rfl
  · exact mem_le_intListMax 128 _ (List.mem_map.mpr ⟨(128, y), hRmem, rfl⟩)
  · intro d2 c b
    exact pixelD_out d2 128 b c (by omega)
  · intro d2 c a
    exact pixelD_out d2 a 64 c (by omega)

/-- A full canvas with a single unlit pixel at `(127, 0)`, touching the right
edge; flooding from it visits that pixel plus the whole off-canvas strips
`x = 128` and `y = 64`. -/
def drawOneHole : Draw :=
  { content := fun a b => !(decide (a = 127) && decide (b = 0)),
    old_content := fun _ _ => false, cursor := (0, 0), commits := 0 }

set_option maxRecDepth 20000 in
set_option maxHeartbeats 4000000 in
theorem flood_fill_edge_overflow_witness :
    (0 : Int) ≤ 0 ∧ (0 : Int) ≤ 64 ∧ (0 : Int) ≤ 128 ∧ (128 : Int) ≤ 128 ∧
    (127, 0) ∈ floodVisited drawOneHole 800 127 0 ∧
    (128, 63) ∈ floodVisited drawOneHole 800 127 0 ∧
    (128, 0) ∈ floodVisited drawOneHole 800 127 0 ∧
    (128, 64) ∈ floodVisited drawOneHole 800 127 0 ∧
    128 ≤ intListMax ((floodVisited drawOneHole 800 127 0).map Prod.fst) := by
  have hR : ((127 : Int), (0 : Int)) ∈ floodVisited drawOneHole 800 127 0 := by decide
  have hB : ((128 : Int), (63 : Int)) ∈ floodVisited drawOneHole 800 127 0 := by decide
  have h := flood_fill_edge_overflow drawOneHole 800 127 0 128 0 (by decide) (by decide)
    (by decide) (by decide) hR hB
  exact ⟨by decide, by decide, by decide, by decide, hR, hB,
    h.2.2.1, h.2.2.2.1, h.2.2.2.2.1⟩

/-! ### Circle (`DisplayDraw.circle`)

The float/transcendental arithmetic of the source is idealised over `ℝ`:
`b = math.log(float(next) / float(item)) / float(interpolation_step_size)`
and the generated interpolation function `lambda x: item * math.e ** (b * x)`.
`interpolation_step_size = 360 / len(radiuses)` is Python 2 integer division,
and the `complete_radiuses` array is pre-filled with `0.0`, leaving trailing
zeros when `len(radiuses)` does not divide 360. -/

/-- The geometric interpolation `item * e^(b·s)` of one radius segment. -/
noncomputable def segRadius (item next : ℝ) (stepSize : ℕ) (s : ℕ) : ℝ :=
  item * Real.exp (Real.log (next / item) / (stepSize : ℝ) * (s : ℝ))

/-- The 360-entry `complete_radiuses` array:
`next = radiuses[i+1] if i < len(radiuses)-1 else radiuses[0]`. -/
noncomputable def completeRadiuses (radiuses : List ℝ) : List ℝ :=
  let stepSize := 360 / radiuses.length
  ((List.range radiuses.length).flatMap fun n =>
    (List.range stepSize).map fun s =>
      segRadius (radiuses.getD n 0)
        (if n < radiuses.length - 1 then radiuses.getD (n + 1) 0 else radiuses.getD 0 0)
        stepSize s) ++ List.replicate (360 - radiuses.length * stepSize) 0

/-- `math.radians(a) = a * pi / 180`. -/
noncomputable def radians (a : ℕ) : ℝ := (a : ℝ) * Real.pi / 180

/-- Python 2 `int(round(v))` over the idealised reals. -/
noncomputable def pyroundR (q : ℝ) : Int :=
  if 0 ≤ q then ⌊q + 1 / 2⌋ else ⌈q - 1 / 2⌉

/-- The pixels plotted by `circle(center_x, center_y, radiuses, start, stop)`:
for each angle `a` in `[start, stop]`,
`(center_x + round(sin(radians(a))·r), center_y - round(cos(radians(a))·r))`. -/
noncomputable def circlePixels (cx cy : Int) (radiuses : List ℝ) (start stop : Int) :
    List (Int × Int) :=
  (completeRadiuses radiuses).enum.filterMap fun p =>
    if (p.1 : Int) < start ∨ (p.1 : Int) > stop then none
    else some (cx + pyroundR (Real.sin (radians p.1) * p.2),
      cy - pyroundR (Real.cos (radians p.1) * p.2))

theorem completeRadiuses_pair (r : ℝ) (hr : r ≠ 0) :
    completeRadiuses [r, r] = List.replicate 360 r := by
  have hseg : ∀ stepSize s : ℕ, segRadius r r stepSize s = r := by
    intro st s
    unfold segRadius
    rw [div_self hr, Real.log_one, zero_div, zero_mul, Real.exp_zero, mul_one]
  unfold completeRadiuses
  have hlen : ([r, r] : List ℝ).length = 2 := rfl
  rw [hlen]
  norm_num
  have hrange : List.range 2 = [0, 1] := rfl
  rw [hrange]
  simp only [List.flatMap_cons, List.flatMap_nil, List.append_nil, List.getD]
  have hf : ∀ u v : ℝ, u = r → v = r →
      ((List.range 180).map fun s => segRadius u v 180 s) = List.replicate 180 r := by
    intro u v hu hv
    rw [hu, hv]
    have hc : (fun s => segRadius r r 180 s) = fun _ : ℕ => r := funext (hseg 180)
    rw [hc]
    simp
  rw [hf _ _ (by simp) (by simp), hf _ _ (by simp) (by simp)]
  rw [← List.replicate_add]

theorem completeRadiuses_single (r : ℝ) (hr : r ≠ 0) :
    completeRadiuses [r] = List.replicate 360 r := by
  have hseg : ∀ stepSize s : ℕ, segRadius r r stepSize s = r := by
    intro st s
    unfold segRadius
    rw [div_self hr, Real.log_one, zero_div, zero_mul, Real.exp_zero, mul_one]
  unfold completeRadiuses
  have hlen : ([r] : List ℝ).length = 1 := rfl
  rw [hlen]
  norm_num
  have hrange : List.range 1 = [0] := rfl
  rw [hrange]
  simp only [List.flatMap_cons, List.flatMap_nil, List.append_nil, List.getD]
  have hf : ∀ u v : ℝ, u = r → v = r →
      ((List.range 360).map fun s => segRadius u v 360 s) = List.replicate 360 r := by
    intro u v hu hv
    rw [hu, hv]
    have hc : (fun s => segRadius r r 360 s) = fun _ : ℕ => r := funext (hseg 360)
    rw [hc]
    simp
  rw [hf _ _ (by simp) (by simp)]

/-- C9: with two equal control radii, the geometric interpolation
`r·e^(b·s)`, `b = ln(r/r)/step_count`, is the constant `r` at every one of
the 360 angular steps, so `circle(cx, cy, [r, r], start, stop)` plots exactly
the pixels of `circle(cx, cy, r, start, stop)` (whose `radiuses` list is the
singleton `[r]`). -/
theorem circle_equal_radii_degenerate (cx cy : Int) (r : ℝ) (hr : 0 < r)
    (start stop : Int) :
    circlePixels cx cy [r, r] start stop = circlePixels cx cy [r] start stop := by
  have hrad : completeRadiuses [r, r] = completeRadiuses [r] := by
    rw [completeRadiuses_pair r (ne_of_gt hr), completeRadiuses_single r (ne_of_gt hr)]
  unfold circlePixels
  rw [hrad]

theorem circle_equal_radii_degenerate_witness :
    (0 : ℝ) < 10 ∧ circlePixels 32 32 [10, 10] 0 360 = circlePixels 32 32 [10] 0 360 :=
  ⟨by norm_num, circle_equal_radii_degenerate 32 32 10 (by norm_num) 0 360⟩

end PyLCD
